import Mathlib

/-!
Shallow embedding of the Brin dynamic string library (brin.c).

Modelling conventions:
* A byte is a `Nat`; a C string argument (`const char *`) is the `List Nat`
  of the bytes it points to.  Wherever the C code reads such an argument it
  does so through `strlen`/`strcpy`/`memcpy`-up-to-`strlen`, so every
  operation below applies `cstrB`/`strlenB` (bytes before the first 0),
  exactly as the libc calls in the source do.
* A `Brin` value models the struct: `string` is the full heap block the
  `char *string` field points to (terminator included, since every
  allocation in the source is sized to `length + 1`), `length` the
  `size_t length` field.  The function-pointer table of the non-LITE build
  binds each slot to the corresponding free function (`brin_new` in the
  source), so calls through slots are calls of the functions below.
* Fatal error paths (`fprintf(stderr, ...); exit(EXIT_FAILURE)`) never
  return; an operation with such paths returns `Option`, `none` meaning
  the process terminated.  Null-pointer checks cannot fire in the value
  model (there is no null `Brin` or null list), so only the range,
  empty-pattern and length checks of the source remain observable.
* `malloc`/`realloc` are assumed to succeed in the main definitions, as
  every failure path of the source exits the process -- except the one in
  `brin_remove`, which silently returns; `brin_remove_oom` keeps that
  allocation outcome explicit as a parameter.
* `isspace`/`tolower`/`toupper` are the C-locale byte-wise classifiers,
  applied to the value truncated to `unsigned char` as the source casts do.
-/

/-- C-locale `isspace` on a value cast to unsigned char: space (32) and the
control characters 9..13. -/
def isspaceB (c : Nat) : Bool :=
  let d := c % 256
  d == 32 || (decide (9 ≤ d) && decide (d ≤ 13))

/-- C-locale `tolower` on a value cast to unsigned char. -/
def tolowerB (c : Nat) : Nat :=
  let d := c % 256
  if 65 ≤ d ∧ d ≤ 90 then d + 32 else d

/-- C-locale `toupper` on a value cast to unsigned char. -/
def toupperB (c : Nat) : Nat :=
  let d := c % 256
  if 97 ≤ d ∧ d ≤ 122 then d - 32 else d

/-- Bytes of the C string a pointer denotes: everything before the first 0. -/
def cstrB (l : List Nat) : List Nat := l.takeWhile (fun c => c != 0)

/-- C `strlen`. -/
def strlenB (l : List Nat) : Nat := (cstrB l).length

/-- C `strstr`, as the index of the first occurrence of `needle` in `hay`
(`some` of the least index at which `needle` is a prefix of the rest of
`hay`), `none` when there is no occurrence. -/
def strstrIdx (hay needle : List Nat) : Option Nat :=
  if needle.isPrefixOf hay then some 0
  else
    match hay with
    | [] => none
    | _ :: rest => (strstrIdx rest needle).map (fun i => i + 1)

/-- The `Brin` struct: the heap block `string` points to, and `length`. -/
structure Brin where
  string : List Nat
  length : Nat
deriving DecidableEq

/-- The buffer content: the first `length` bytes of the block. -/
def content (b : Brin) : List Nat := b.string.take b.length

/-- A list of bytes with no embedded 0. -/
def NoNull (l : List Nat) : Prop := ∀ c ∈ l, c ≠ 0

/-- A list of genuine C-string bytes: nonzero and below 256. -/
def CStrOK (l : List Nat) : Prop := ∀ c ∈ l, c ≠ 0 ∧ c < 256

/-- A live buffer: the block is exactly the content (valid bytes, no
embedded null) followed by the terminator, and `length` matches. -/
def Live (b : Brin) : Prop := CStrOK (content b) ∧ b.string = content b ++ [0]

instance (l : List Nat) : Decidable (NoNull l) := by
  unfold NoNull; infer_instance

instance (l : List Nat) : Decidable (CStrOK l) := by
  unfold CStrOK; infer_instance

instance (b : Brin) : Decidable (Live b) := by
  unfold Live; infer_instance

/-- C `realloc` to `newsize` bytes: the old bytes are preserved up to the
new size; bytes gained on growth are uninitialized in C and modelled as 0
(every use below overwrites them before they become observable). -/
def reallocB (old : List Nat) (newsize : Nat) : List Nat :=
  old.take newsize ++ List.replicate (newsize - old.length) 0

/-- C `strcat`: writes `src`'s C string and a terminator starting at the
first 0 of `dst`; bytes beyond what is written keep their old values. -/
def strcatB (dst src : List Nat) : List Nat :=
  dst.take (strlenB dst) ++ cstrB src ++ [0] ++
    dst.drop (strlenB dst + strlenB src + 1)

/-- `brin_new`: `length = strlen(string)`, `malloc(length + 1)`, `strcpy`. -/
def brin_new (string : List Nat) : Brin :=
  { string := cstrB string ++ [0], length := strlenB string }

/-- `brin_concat`: `realloc` to `length + strlen(suffix) + 1`, `strcat`. -/
def brin_concat (b : Brin) (suffix : List Nat) : Brin :=
  let suffix_len := strlenB suffix
  let new_length := b.length + suffix_len
  { string := strcatB (reallocB b.string (new_length + 1)) suffix
    length := new_length }

/-- `brin_contains`: `strstr(b->string, string) != NULL`. -/
def brin_contains (b : Brin) (string : List Nat) : Bool :=
  (strstrIdx (cstrB b.string) (cstrB string)).isSome

/-- `brin_index_of`: index of the `strstr` hit, `-1` when there is none. -/
def brin_index_of (b : Brin) (string : List Nat) : Int :=
  match strstrIdx (cstrB b.string) (cstrB string) with
  | some i => (i : Int)
  | none => -1

/-- `brin_equals`: `strcmp(b->string, string) == 0`. -/
def brin_equals (b : Brin) (string : List Nat) : Bool :=
  cstrB b.string == cstrB string

/-- `brin_insert`: exits on `index < 0 || index > (int)b->length`; otherwise
mallocs `length + strlen(string) + 1` bytes, copies the prefix, the
inserted string and the suffix, terminates, frees the old block. -/
def brin_insert (b : Brin) (index : Int) (string : List Nat) : Option Brin :=
  if index < 0 ∨ (b.length : Int) < index then none
  else
    let i := index.toNat
    let insert_len := strlenB string
    let new_length := b.length + insert_len
    some { string := b.string.take i ++ string.take insert_len ++
             (b.string.drop i).take (b.length - i) ++ [0]
           length := new_length }

/-- `brin_is_empty`: `b->length == 0`. -/
def brin_is_empty (b : Brin) : Bool := b.length == 0

/-- `brin_is_whitespace`: 0 for the empty buffer, else 1 iff `isspace`
holds of `b->string[i]` for every `i < b->length`. -/
def brin_is_whitespace (b : Brin) : Bool :=
  if b.length == 0 then false
  else (List.range b.length).all (fun i => isspaceB (b.string.getD i 0))

/-- `brin_to_lower`: rewrites `b->string[i]` for `i < b->length` in place. -/
def brin_to_lower (b : Brin) : Brin :=
  { string := (b.string.take b.length).map tolowerB ++ b.string.drop b.length
    length := b.length }

/-- `brin_to_upper`: rewrites `b->string[i]` for `i < b->length` in place. -/
def brin_to_upper (b : Brin) : Brin :=
  { string := (b.string.take b.length).map toupperB ++ b.string.drop b.length
    length := b.length }

/-- `brin_trim_start`: advances `start` while `*start && isspace(*start)`,
`memmove`s the `strlen(start) + 1` remaining bytes to the front, shrinks
the block with `realloc`. -/
def brin_trim_start (b : Brin) : Brin :=
  let skipped := (b.string.takeWhile (fun c => c != 0 && isspaceB c)).length
  let new_len := strlenB (b.string.drop skipped)
  let moved := (b.string.drop skipped).take (new_len + 1) ++
    b.string.drop (new_len + 1)
  { string := reallocB moved (new_len + 1), length := new_len }

/-- The backward scan of `brin_trim_end`: starting at `b->string + n - 1`,
steps back while the byte is whitespace and the pointer has not passed the
start of the block; returns `end - b->string + 1`. -/
def scanBackWs (l : List Nat) : Nat → Nat
  | 0 => 0
  | n + 1 => if isspaceB (l.getD n 0) then scanBackWs l n else n + 1

/-- `brin_trim_end`: backward whitespace scan from the last byte, writes a
terminator at the new length, shrinks the block with `realloc`. -/
def brin_trim_end (b : Brin) : Brin :=
  let new_len := scanBackWs b.string b.length
  { string := reallocB (b.string.set new_len 0) (new_len + 1)
    length := new_len }

/-- `brin_trim`: `brin_trim_end` then `brin_trim_start`. -/
def brin_trim (b : Brin) : Brin := brin_trim_start (brin_trim_end b)

/-- `brin_remove` with the `malloc` outcome explicit: exits on an invalid
range; on `malloc` failure the source does a bare `return`, leaving the
buffer untouched; otherwise copies around the removed range into a fresh
block and frees the old one. -/
def brin_remove_oom (allocOk : Bool) (b : Brin) (start stop : Int) :
    Option Brin :=
  if start < 0 ∨ stop < start ∨ (b.length : Int) < stop then none
  else if allocOk = false then some b
  else
    let s := start.toNat
    let e := stop.toNat
    let new_len := b.length - (e - s)
    some { string := b.string.take s ++
             (b.string.drop e).take (b.length - e) ++ [0]
           length := new_len }

/-- `brin_remove` under the successful-allocation semantics used by every
other operation. -/
def brin_remove (b : Brin) (start stop : Int) : Option Brin :=
  brin_remove_oom true b start stop

/-- The `while (1)` body of `brin_replace`, with fuel making the recursion
well defined; `replace_terminates_c5` shows the fuel passed by
`brin_replace` is never exhausted, so the bound is not observable.  Each
round builds `temp = brin_new(b->string + offset)`, locates `to_replace`
through `temp.index_of`, and on a hit removes it and inserts `replace_by`
at the absolute position, resuming past the inserted bytes. -/
def replace_loop (to_replace replace_by : List Nat) :
    Nat → Brin → Int → Option Brin
  | 0, _, _ => none
  | fuel + 1, b, offset =>
    let len_old := strlenB to_replace
    let len_new := strlenB replace_by
    let temp := brin_new (b.string.drop offset.toNat)
    let local_index := brin_index_of temp to_replace
    if local_index = -1 then some b
    else
      let global_index := offset + local_index
      match brin_remove b global_index (global_index + (len_old : Int)) with
      | none => none
      | some b1 =>
        match brin_insert b1 global_index replace_by with
        | none => none
        | some b2 =>
          replace_loop to_replace replace_by fuel b2
            (global_index + (len_new : Int))

/-- `brin_replace`: exits when `*to_replace` is 0 (empty pattern), else
runs the scan loop from offset 0. -/
def brin_replace (b : Brin) (to_replace replace_by : List Nat) :
    Option Brin :=
  if to_replace.headD 0 == 0 then none
  else replace_loop to_replace replace_by (b.length + 1) b 0

/-- C `strtok` iteration over a copy of the buffer: the maximal nonempty
runs of bytes not contained in the separator set. -/
def splitRuns (sepl : List Nat) (l : List Nat) : List (List Nat) :=
  match l with
  | [] => []
  | c :: rest =>
    if sepl.contains c then splitRuns sepl rest
    else (c :: rest.takeWhile (fun d => !sepl.contains d)) ::
      splitRuns sepl (rest.dropWhile (fun d => !sepl.contains d))
termination_by l.length
decreasing_by
  · simp only [List.length_cons]; omega
  · simp only [List.length_cons]
    have h := (List.dropWhile_sublist (l := rest)
      (fun d => !sepl.contains d)).length_le
    omega

/-- `brin_split`: `strdup`s the buffer, tokenizes it with `strtok`, and
returns the token array (the terminating NULL slot of the C array is the
end of the returned list). -/
def brin_split (b : Brin) (sep : List Nat) : List (List Nat) :=
  splitRuns (cstrB sep) (cstrB b.string)

/-- The indexed loop of `brin_join`: concatenates `array[i]`, and the
separator after every element except the last. -/
def brin_join_loop (sep : List Nat) : Brin → List (List Nat) → Brin
  | b, [] => b
  | b, x :: xs =>
    let b1 := brin_concat b x
    let b2 := if xs.isEmpty then b1 else brin_concat b1 sep
    brin_join_loop sep b2 xs

/-- `brin_join`: starts from `brin_new("")` and runs the loop. -/
def brin_join (array : List (List Nat)) (sep : List Nat) : Brin :=
  brin_join_loop sep (brin_new []) array

/-- The invariant of §8 of the spec: the tracked length is the `strlen` of
the block and the byte at that index is the terminator. -/
def lenInv (b : Brin) : Prop :=
  strlenB b.string = b.length ∧ b.string[b.length]? = some 0

instance (b : Brin) : Decidable (lenInv b) := by
  unfold lenInv; infer_instance

/-- Replacement of every non-overlapping left-to-right occurrence, never
rescanning inserted text, stated from the spec's words (for the refinement
claims about `brin_replace`). -/
def specReplaceAll (needle repl : List Nat) (s : List Nat) : List Nat :=
  match s with
  | [] => []
  | c :: rest =>
    if h : needle ≠ [] ∧ needle <+: (c :: rest) then
      repl ++ specReplaceAll needle repl ((c :: rest).drop needle.length)
    else c :: specReplaceAll needle repl rest
termination_by s.length
decreasing_by
  · simp only [List.length_drop, List.length_cons]
    have h1 : 0 < needle.length := List.length_pos.mpr h.1
    omega
  · simp only [List.length_cons]; omega

/-- Literal split with empty-field semantics, stated from the spec's words
(the foil the spec contrasts `split` with: every delimiter byte ends a
field, so consecutive delimiters yield empty fields). -/
def specSplitLiteral (p : Nat → Bool) : List Nat → List (List Nat)
  | [] => [[]]
  | c :: rest =>
    if p c then [] :: specSplitLiteral p rest
    else
      match specSplitLiteral p rest with
      | [] => [[c]]
      | t :: ts => (c :: t) :: ts

/-- Content produced by the `brin_join` loop: the items with the separator
strictly between consecutive elements. -/
def joinAux (sep : List Nat) : List (List Nat) → List Nat
  | [] => []
  | [x] => x
  | x :: y :: xs => x ++ sep ++ joinAux sep (y :: xs)

/-! Basic facts about the byte-string helpers and liveness. -/

theorem noNull_of_cStrOK {l : List Nat} (h : CStrOK l) : NoNull l :=
  fun c hc => (h c hc).1

theorem cstrB_eq_self {l : List Nat} (h : NoNull l) : cstrB l = l := by
  unfold cstrB
  rw [List.takeWhile_eq_self_iff]
  intro x hx
  simpa using h x hx

theorem cstrB_append_zero {l t : List Nat} (h : NoNull l) :
    cstrB (l ++ 0 :: t) = l := by
  unfold cstrB
  rw [List.takeWhile_append_of_pos (by intro a ha; simpa using h a ha)]
  simp [List.takeWhile]

theorem strlenB_eq {l : List Nat} (h : NoNull l) : strlenB l = l.length := by
  unfold strlenB
  rw [cstrB_eq_self h]

theorem strlenB_append_zero {l t : List Nat} (h : NoNull l) :
    strlenB (l ++ 0 :: t) = l.length := by
  unfold strlenB
  rw [cstrB_append_zero h]

theorem take_strlenB (l : List Nat) : l.take (strlenB l) = cstrB l := by
  unfold strlenB cstrB
  exact (List.prefix_iff_eq_take.mp
    (List.takeWhile_prefix (l := l) (fun c => c != 0))).symm

theorem cStrOK_append {l t : List Nat} (hl : CStrOK l) (ht : CStrOK t) :
    CStrOK (l ++ t) := by
  intro c hc
  rcases List.mem_append.mp hc with h | h
  · exact hl c h
  · exact ht c h

theorem cStrOK_take {l : List Nat} (hl : CStrOK l) (n : Nat) :
    CStrOK (l.take n) :=
  fun c hc => hl c (List.take_subset n l hc)

theorem cStrOK_drop {l : List Nat} (hl : CStrOK l) (n : Nat) :
    CStrOK (l.drop n) :=
  fun c hc => hl c (List.drop_subset n l hc)

theorem Live.cStrOK {b : Brin} (h : Live b) : CStrOK (content b) := h.1

theorem Live.string_eq {b : Brin} (h : Live b) :
    b.string = content b ++ [0] := h.2

theorem Live.content_length {b : Brin} (h : Live b) :
    (content b).length = b.length := by
  have h1 : (content b).length ≤ b.length := by
    unfold content
    simpa using Nat.le_refl _ |>.trans (Nat.le_refl _)
  have h2 := congrArg List.length h.string_eq
  simp only [List.length_append, List.length_cons, List.length_nil] at h2
  unfold content at h2 ⊢
  simp only [List.length_take] at h2 ⊢
  omega

theorem Live.string_length {b : Brin} (h : Live b) :
    b.string.length = b.length + 1 := by
  have h2 := congrArg List.length h.string_eq
  simp only [List.length_append, List.length_cons, List.length_nil] at h2
  rw [h2, h.content_length]

theorem live_mk {X : List Nat} (h : CStrOK X) :
    Live { string := X ++ [0], length := X.length } := by
  constructor
  · show CStrOK ((X ++ [0]).take X.length)
    rw [List.take_left' rfl]
    exact h
  · show X ++ [0] = (X ++ [0]).take X.length ++ [0]
    rw [List.take_left' rfl]

theorem content_mk (X : List Nat) :
    content { string := X ++ [0], length := X.length } = X := by
  unfold content
  exact List.take_left' rfl

theorem Live.cstrB_string {b : Brin} (h : Live b) :
    cstrB b.string = content b := by
  rw [h.string_eq]
  exact cstrB_append_zero (noNull_of_cStrOK h.cStrOK)

theorem Live.strlenB_string {b : Brin} (h : Live b) :
    strlenB b.string = b.length := by
  unfold strlenB
  rw [h.cstrB_string, h.content_length]

theorem Live.lenInv {b : Brin} (h : Live b) : lenInv b := by
  constructor
  · exact h.strlenB_string
  · rw [h.string_eq, List.getElem?_append_right (by rw [h.content_length])]
    rw [h.content_length]
    simp

theorem live_brin_new (s : List Nat) (h : CStrOK s) : Live (brin_new s) := by
  unfold brin_new
  rw [cstrB_eq_self (noNull_of_cStrOK h), strlenB_eq (noNull_of_cStrOK h)]
  exact live_mk h

theorem brin_new_eq (s : List Nat) (h : NoNull s) :
    brin_new s = { string := s ++ [0], length := s.length } := by
  unfold brin_new
  rw [cstrB_eq_self h, strlenB_eq h]

/-! What each mutating operation computes on a live buffer. -/

theorem brin_concat_eq {b : Brin} (hb : Live b) {suffix : List Nat}
    (hs : NoNull suffix) :
    brin_concat b suffix =
      { string := content b ++ suffix ++ [0]
        length := b.length + suffix.length } := by
  have hL := hb.content_length
  have hdst : reallocB b.string (b.length + strlenB suffix + 1) =
      content b ++ 0 :: List.replicate suffix.length 0 := by
    unfold reallocB
    rw [strlenB_eq hs,
      List.take_of_length_le (by rw [hb.string_length]; omega),
      hb.string_length, hb.string_eq]
    have harith : b.length + suffix.length + 1 - (b.length + 1) =
        suffix.length := by omega
    rw [harith, List.append_assoc]
    rfl
  simp only [brin_concat, strcatB, hdst]
  have hlen2 : strlenB (content b ++ 0 :: List.replicate suffix.length 0) =
      b.length := by
    rw [strlenB_append_zero (noNull_of_cStrOK hb.cStrOK), hL]
  rw [hlen2, strlenB_eq hs, cstrB_eq_self hs]
  have htake : (content b ++ 0 :: List.replicate suffix.length 0).take b.length
      = content b := List.take_left' hL
  have hdrop : (content b ++ 0 :: List.replicate suffix.length 0).drop
      (b.length + suffix.length + 1) = [] := by
    apply List.drop_of_length_le
    simp only [List.length_append, List.length_cons, List.length_replicate, hL]
    omega
  rw [htake, hdrop]
  simp

theorem live_brin_concat {b : Brin} (hb : Live b) {suffix : List Nat}
    (hs : CStrOK suffix) : Live (brin_concat b suffix) := by
  rw [brin_concat_eq hb (noNull_of_cStrOK hs)]
  have h := live_mk (cStrOK_append hb.cStrOK hs)
  have hlen : (content b ++ suffix).length = b.length + suffix.length := by
    simp [hb.content_length]
  rw [hlen] at h
  simpa [List.append_assoc] using h

theorem brin_insert_eq {b : Brin} (hb : Live b) {i : Int}
    {t : List Nat} (ht : NoNull t) (h0 : 0 ≤ i)
    (h1 : i ≤ (b.length : Int)) :
    brin_insert b i t =
      some { string := (content b).take i.toNat ++ t ++
               (content b).drop i.toNat ++ [0]
             length := b.length + t.length } := by
  have hL := hb.content_length
  have hi : i.toNat ≤ b.length := by omega
  simp only [brin_insert,
    if_neg (by omega : ¬(i < 0 ∨ (b.length : Int) < i))]
  rw [take_strlenB, cstrB_eq_self ht, strlenB_eq ht]
  have htake : b.string.take i.toNat = (content b).take i.toNat := by
    rw [hb.string_eq, List.take_append_eq_append_take, hL,
      Nat.sub_eq_zero_of_le hi]
    simp
  have hdrop : (b.string.drop i.toNat).take (b.length - i.toNat) =
      (content b).drop i.toNat := by
    rw [hb.string_eq, List.drop_append_eq_append_drop, hL,
      Nat.sub_eq_zero_of_le hi, List.take_append_eq_append_take]
    have hl2 : ((content b).drop i.toNat).length =
        b.length - i.toNat := by simp [hL]
    rw [List.take_of_length_le (le_of_eq hl2), hl2, Nat.sub_self]
    simp
  rw [htake, hdrop]

theorem live_brin_insert {b : Brin} (hb : Live b) {i : Int}
    {t : List Nat} (ht : CStrOK t) (h0 : 0 ≤ i)
    (h1 : i ≤ (b.length : Int)) :
    Live { string := (content b).take i.toNat ++ t ++
             (content b).drop i.toNat ++ [0]
           length := b.length + t.length } := by
  have hok : CStrOK ((content b).take i.toNat ++ t ++
      (content b).drop i.toNat) :=
    cStrOK_append (cStrOK_append (cStrOK_take hb.cStrOK _) ht)
      (cStrOK_drop hb.cStrOK _)
  have h := live_mk hok
  have hlen : ((content b).take i.toNat ++ t ++
      (content b).drop i.toNat).length = b.length + t.length := by
    have hL := hb.content_length
    have hi2 : i.toNat ≤ b.length := by omega
    simp [hL]
    omega
  rw [hlen] at h
  simpa [List.append_assoc] using h


theorem brin_remove_eq {b : Brin} (hb : Live b) {s e : Int}
    (h0 : 0 ≤ s) (h1 : s ≤ e) (h2 : e ≤ (b.length : Int)) :
    brin_remove b s e =
      some { string := (content b).take s.toNat ++
               (content b).drop e.toNat ++ [0]
             length := b.length - (e.toNat - s.toNat) } := by
  have hL := hb.content_length
  have hsn : s.toNat ≤ b.length := by omega
  have hen : e.toNat ≤ b.length := by omega
  simp only [brin_remove, brin_remove_oom,
    if_neg (by omega : ¬(s < 0 ∨ e < s ∨ (b.length : Int) < e)),
    if_neg (by simp : ¬(true = false))]
  have htake : b.string.take s.toNat = (content b).take s.toNat := by
    rw [hb.string_eq, List.take_append_eq_append_take, hL,
      Nat.sub_eq_zero_of_le hsn]
    simp
  have hdrop : (b.string.drop e.toNat).take (b.length - e.toNat) =
      (content b).drop e.toNat := by
    rw [hb.string_eq, List.drop_append_eq_append_drop, hL,
      Nat.sub_eq_zero_of_le hen, List.take_append_eq_append_take]
    have hl2 : ((content b).drop e.toNat).length =
        b.length - e.toNat := by simp [hL]
    rw [List.take_of_length_le (le_of_eq hl2), hl2, Nat.sub_self]
    simp
  rw [htake, hdrop]

theorem live_brin_remove {b : Brin} (hb : Live b) {s e : Int}
    (h0 : 0 ≤ s) (h1 : s ≤ e) (h2 : e ≤ (b.length : Int)) :
    Live { string := (content b).take s.toNat ++
             (content b).drop e.toNat ++ [0]
           length := b.length - (e.toNat - s.toNat) } := by
  have hok : CStrOK ((content b).take s.toNat ++
      (content b).drop e.toNat) :=
    cStrOK_append (cStrOK_take hb.cStrOK _) (cStrOK_drop hb.cStrOK _)
  have h := live_mk hok
  have hlen : ((content b).take s.toNat ++
      (content b).drop e.toNat).length =
      b.length - (e.toNat - s.toNat) := by
    have hL := hb.content_length
    simp [hL]
    omega
  rw [hlen] at h
  simpa [List.append_assoc] using h

theorem brin_to_lower_eq {b : Brin} (hb : Live b) :
    brin_to_lower b =
      { string := (content b).map tolowerB ++ [0], length := b.length } := by
  simp only [brin_to_lower]
  have hd : b.string.drop b.length = [0] := by
    rw [hb.string_eq, List.drop_append_eq_append_drop, hb.content_length,
      Nat.sub_self, List.drop_of_length_le (by rw [hb.content_length])]
    simp
  rw [hd]
  rfl

theorem brin_to_upper_eq {b : Brin} (hb : Live b) :
    brin_to_upper b =
      { string := (content b).map toupperB ++ [0], length := b.length } := by
  simp only [brin_to_upper]
  have hd : b.string.drop b.length = [0] := by
    rw [hb.string_eq, List.drop_append_eq_append_drop, hb.content_length,
      Nat.sub_self, List.drop_of_length_le (by rw [hb.content_length])]
    simp
  rw [hd]
  rfl

theorem tolowerB_valid {c : Nat} (h : c ≠ 0 ∧ c < 256) :
    tolowerB c ≠ 0 ∧ tolowerB c < 256 := by
  have h2 : c % 256 = c := Nat.mod_eq_of_lt h.2
  simp only [tolowerB, h2]
  split <;> omega

theorem toupperB_valid {c : Nat} (h : c ≠ 0 ∧ c < 256) :
    toupperB c ≠ 0 ∧ toupperB c < 256 := by
  have h2 : c % 256 = c := Nat.mod_eq_of_lt h.2
  simp only [toupperB, h2]
  split <;> omega

theorem live_brin_to_lower {b : Brin} (hb : Live b) :
    Live (brin_to_lower b) := by
  rw [brin_to_lower_eq hb]
  have hok : CStrOK ((content b).map tolowerB) := by
    intro c hc
    obtain ⟨d, hd, rfl⟩ := List.mem_map.mp hc
    exact tolowerB_valid (hb.cStrOK d hd)
  have h := live_mk hok
  have hlen : ((content b).map tolowerB).length = b.length := by
    simp [hb.content_length]
  rw [hlen] at h
  exact h

theorem live_brin_to_upper {b : Brin} (hb : Live b) :
    Live (brin_to_upper b) := by
  rw [brin_to_upper_eq hb]
  have hok : CStrOK ((content b).map toupperB) := by
    intro c hc
    obtain ⟨d, hd, rfl⟩ := List.mem_map.mp hc
    exact toupperB_valid (hb.cStrOK d hd)
  have h := live_mk hok
  have hlen : ((content b).map toupperB).length = b.length := by
    simp [hb.content_length]
  rw [hlen] at h
  exact h

/-! The two trims on a live buffer. -/

theorem takeWhile_nonzero_ws {c : List Nat} (h : NoNull c) :
    (c ++ [0]).takeWhile (fun x => x != 0 && isspaceB x) =
      c.takeWhile isspaceB := by
  induction c with
  | nil => simp [List.takeWhile]
  | cons a c' ih =>
    have ha : a ≠ 0 := h a (by simp)
    have hih := ih (fun x hx => h x (by simp [hx]))
    by_cases hw : isspaceB a
    · simp only [List.cons_append, List.takeWhile_cons]
      rw [if_pos (by simp [ha, hw]), if_pos hw, hih]
    · simp only [List.cons_append, List.takeWhile_cons]
      rw [if_neg (by simp [ha, hw]), if_neg hw]

theorem reallocB_left {l : List Nat} (t : List Nat) {n : Nat}
    (h : l.length = n) : reallocB (l ++ t) n = l := by
  unfold reallocB
  rw [← h, List.take_left]
  have h0 : l.length - (l ++ t).length = 0 := by simp
  rw [h0]
  simp

theorem drop_length_takeWhile (p : Nat → Bool) (l : List Nat) :
    l.drop (l.takeWhile p).length = l.dropWhile p :=
  calc l.drop (l.takeWhile p).length
      = (l.takeWhile p ++ l.dropWhile p).drop (l.takeWhile p).length := by
        rw [List.takeWhile_append_dropWhile]
    _ = l.dropWhile p := List.drop_left ..

theorem brin_trim_start_eq {b : Brin} (hb : Live b) :
    brin_trim_start b =
      { string := (content b).dropWhile isspaceB ++ [0]
        length := ((content b).dropWhile isspaceB).length } := by
  have hL := hb.content_length
  have hnn := noNull_of_cStrOK hb.cStrOK
  have hk : (b.string.takeWhile (fun x => x != 0 && isspaceB x)).length =
      ((content b).takeWhile isspaceB).length := by
    rw [hb.string_eq, takeWhile_nonzero_ws hnn]
  have hkle : ((content b).takeWhile isspaceB).length ≤ b.length := by
    have := (List.takeWhile_prefix (l := content b) isspaceB).length_le
    omega
  have hdropk : b.string.drop ((content b).takeWhile isspaceB).length =
      (content b).dropWhile isspaceB ++ [0] := by
    rw [hb.string_eq, List.drop_append_eq_append_drop,
      Nat.sub_eq_zero_of_le (by omega), drop_length_takeWhile]
    simp
  have hlen2 : strlenB ((content b).dropWhile isspaceB ++ [0]) =
      ((content b).dropWhile isspaceB).length := by
    have : (content b).dropWhile isspaceB ++ [0] =
        (content b).dropWhile isspaceB ++ 0 :: [] := rfl
    rw [this, strlenB_append_zero
      (fun x hx => hnn x (List.dropWhile_subset _ hx))]
  have hwhole : ((content b).dropWhile isspaceB ++ [0]).take
      (((content b).dropWhile isspaceB).length + 1) =
      (content b).dropWhile isspaceB ++ [0] :=
    List.take_of_length_le (by simp)
  simp only [brin_trim_start, hk, hdropk, hlen2, hwhole]
  rw [reallocB_left _ (by simp)]

theorem live_brin_trim_start {b : Brin} (hb : Live b) :
    Live (brin_trim_start b) := by
  rw [brin_trim_start_eq hb]
  exact live_mk (fun c hc => hb.cStrOK c (List.dropWhile_subset _ hc))

theorem scanBackWs_le (l : List Nat) (n : Nat) : scanBackWs l n ≤ n := by
  induction n with
  | zero => simp [scanBackWs]
  | succ m ih =>
    unfold scanBackWs
    split
    · omega
    · omega

theorem set_take_succ {l : List Nat} {n : Nat} (h : n < l.length) :
    (l.set n 0).take (n + 1) = l.take n ++ [0] := by
  induction l generalizing n with
  | nil => simp at h
  | cons a t ih =>
    cases n with
    | zero => simp
    | succ m =>
      simp only [List.set_cons_succ, List.take_succ_cons, List.cons_append]
      rw [ih (by simpa using h)]

theorem brin_trim_end_eq {b : Brin} (hb : Live b) :
    brin_trim_end b =
      { string := (content b).take (scanBackWs b.string b.length) ++ [0]
        length := scanBackWs b.string b.length } := by
  have hL := hb.content_length
  have hkle := scanBackWs_le b.string b.length
  set k := scanBackWs b.string b.length with hkdef
  have hset : (b.string.set k 0).take (k + 1) = b.string.take k ++ [0] :=
    set_take_succ (by rw [hb.string_length]; omega)
  have htake : b.string.take k = (content b).take k := by
    rw [hb.string_eq, List.take_append_eq_append_take, hL,
      Nat.sub_eq_zero_of_le hkle]
    simp
  have hsplit : b.string.set k 0 =
      ((content b).take k ++ [0]) ++ (b.string.set k 0).drop (k + 1) := by
    conv_lhs => rw [← List.take_append_drop (k + 1) (b.string.set k 0)]
    rw [hset, htake]
  simp only [brin_trim_end, ← hkdef]
  rw [hsplit, reallocB_left _ (by simp [hL]; omega)]

theorem live_brin_trim_end {b : Brin} (hb : Live b) :
    Live (brin_trim_end b) := by
  rw [brin_trim_end_eq hb]
  have hL := hb.content_length
  have hkle := scanBackWs_le b.string b.length
  have h := live_mk (cStrOK_take hb.cStrOK (scanBackWs b.string b.length))
  have hlen : ((content b).take (scanBackWs b.string b.length)).length =
      scanBackWs b.string b.length := by
    simp [hL]
    omega
  rw [hlen] at h
  exact h

theorem live_brin_trim {b : Brin} (hb : Live b) : Live (brin_trim b) :=
  live_brin_trim_start (live_brin_trim_end hb)

/-! Characterisation of the strstr model and of the spec-level replace. -/

theorem noNull_cstrB (l : List Nat) : NoNull (cstrB l) := by
  intro c hc
  have := List.mem_takeWhile_imp hc
  simpa using this

theorem strstrIdx_pos {hay needle : List Nat}
    (hp : needle.isPrefixOf hay = true) : strstrIdx hay needle = some 0 := by
  rw [strstrIdx.eq_def, if_pos hp]

theorem strstrIdx_neg_nil {needle : List Nat}
    (hp : ¬ needle.isPrefixOf ([] : List Nat) = true) :
    strstrIdx [] needle = none := by
  rw [strstrIdx.eq_def, if_neg hp]

theorem strstrIdx_neg_cons {needle : List Nat} {a : Nat} {rest : List Nat}
    (hp : ¬ needle.isPrefixOf (a :: rest) = true) :
    strstrIdx (a :: rest) needle =
      (strstrIdx rest needle).map (fun i => i + 1) := by
  rw [strstrIdx.eq_def, if_neg hp]

theorem strstrIdx_some {hay needle : List Nat} {i : Nat}
    (h : strstrIdx hay needle = some i) :
    needle <+: hay.drop i ∧ ∀ j, j < i → ¬ needle <+: hay.drop j := by
  induction hay generalizing i with
  | nil =>
    by_cases hp : needle.isPrefixOf ([] : List Nat)
    · rw [strstrIdx_pos hp] at h
      injection h with h
      subst h
      exact ⟨by simpa using List.isPrefixOf_iff_prefix.mp hp,
        fun j hj => by omega⟩
    · rw [strstrIdx_neg_nil hp] at h
      exact absurd h (by simp)
  | cons a rest ih =>
    by_cases hp : needle.isPrefixOf (a :: rest)
    · rw [strstrIdx_pos hp] at h
      injection h with h
      subst h
      exact ⟨by simpa using List.isPrefixOf_iff_prefix.mp hp,
        fun j hj => by omega⟩
    · rw [strstrIdx_neg_cons hp] at h
      cases hmatch : strstrIdx rest needle with
      | none => rw [hmatch] at h; simp at h
      | some k =>
        rw [hmatch] at h
        simp only [Option.map_some'] at h
        injection h with h
        obtain ⟨hpre, hmin⟩ := ih hmatch
        subst h
        refine ⟨by simpa using hpre, ?_⟩
        intro j hj
        cases j with
        | zero =>
          intro hcon
          exact hp (by simpa [List.isPrefixOf_iff_prefix] using hcon)
        | succ m =>
          have := hmin m (by omega)
          simpa using this

theorem strstrIdx_none {hay needle : List Nat}
    (h : strstrIdx hay needle = none) :
    ∀ j, ¬ needle <+: hay.drop j := by
  induction hay with
  | nil =>
    by_cases hp : needle.isPrefixOf ([] : List Nat)
    · rw [strstrIdx_pos hp] at h; exact absurd h (by simp)
    · intro j hcon
      rw [List.drop_nil] at hcon
      exact hp (by simpa [List.isPrefixOf_iff_prefix] using hcon)
  | cons a rest ih =>
    by_cases hp : needle.isPrefixOf (a :: rest)
    · rw [strstrIdx_pos hp] at h; exact absurd h (by simp)
    · rw [strstrIdx_neg_cons hp] at h
      cases hmatch : strstrIdx rest needle with
      | some k => rw [hmatch] at h; simp at h
      | none =>
        intro j
        cases j with
        | zero =>
          intro hcon
          exact hp (by simpa [List.isPrefixOf_iff_prefix] using hcon)
        | succ m =>
          have := ih hmatch m
          simpa using this

theorem specReplaceAll_nil (needle repl : List Nat) :
    specReplaceAll needle repl [] = [] := by
  simp [specReplaceAll]

theorem specReplaceAll_pos {needle : List Nat} (repl : List Nat)
    {c : Nat} {rest : List Nat} (hne : needle ≠ [])
    (hp : needle <+: (c :: rest)) :
    specReplaceAll needle repl (c :: rest) =
      repl ++ specReplaceAll needle repl ((c :: rest).drop needle.length) := by
  rw [specReplaceAll]
  rw [dif_pos ⟨hne, hp⟩]

theorem specReplaceAll_neg {needle : List Nat} (repl : List Nat)
    {c : Nat} {rest : List Nat} (hp : ¬ needle <+: (c :: rest)) :
    specReplaceAll needle repl (c :: rest) =
      c :: specReplaceAll needle repl rest := by
  rw [specReplaceAll]
  rw [dif_neg (by intro hcon; exact hp hcon.2)]

theorem specReplaceAll_no_occ {needle repl s : List Nat} (hne : needle ≠ [])
    (h : ∀ j, ¬ needle <+: s.drop j) :
    specReplaceAll needle repl s = s := by
  induction s with
  | nil => exact specReplaceAll_nil ..
  | cons c rest ih =>
    rw [specReplaceAll_neg repl (by simpa using h 0)]
    rw [ih (fun j => by simpa using h (j + 1))]

theorem specReplaceAll_step {needle repl : List Nat} (hne : needle ≠ []) :
    ∀ (li : Nat) (s : List Nat), needle <+: s.drop li →
      (∀ j, j < li → ¬ needle <+: s.drop j) →
      specReplaceAll needle repl s =
        s.take li ++ repl ++
          specReplaceAll needle repl (s.drop (li + needle.length)) := by
  intro li
  induction li with
  | zero =>
    intro s hp _
    rw [List.drop_zero] at hp
    cases s with
    | nil => exact absurd (List.prefix_nil.mp hp) hne
    | cons c rest =>
      rw [specReplaceAll_pos repl hne hp]
      simp
  | succ m ih =>
    intro s hp hmin
    cases s with
    | nil =>
      rw [List.drop_nil] at hp
      exact absurd (List.prefix_nil.mp hp) hne
    | cons c rest =>
      rw [specReplaceAll_neg repl (by simpa using hmin 0 (by omega))]
      rw [ih rest (by simpa using hp)
        (fun j hj => by simpa using hmin (j + 1) (by omega))]
      simp [List.take_succ_cons, List.drop_succ_cons]
      rw [show m + 1 + needle.length = (m + needle.length) + 1 by omega]
      simp [List.drop_succ_cons]

/-! The scan loop of brin_replace. -/

theorem replace_loop_not_found {to_replace replace_by : List Nat}
    {fuel : Nat} {b : Brin} {offset : Int}
    (h : brin_index_of (brin_new (b.string.drop offset.toNat)) to_replace
      = -1) :
    replace_loop to_replace replace_by (fuel + 1) b offset = some b := by
  simp only [replace_loop, h, if_pos]

theorem replace_loop_found {to_replace replace_by : List Nat}
    {fuel : Nat} {b : Brin} {offset : Int} {li : Nat}
    (h : brin_index_of (brin_new (b.string.drop offset.toNat)) to_replace
      = (li : Int)) :
    replace_loop to_replace replace_by (fuel + 1) b offset =
      match brin_remove b (offset + (li : Int))
          (offset + (li : Int) + (strlenB to_replace : Int)) with
      | none => none
      | some b1 =>
        match brin_insert b1 (offset + (li : Int)) replace_by with
        | none => none
        | some b2 =>
          replace_loop to_replace replace_by fuel b2
            (offset + (li : Int) + (strlenB replace_by : Int)) := by
  simp only [replace_loop, h, if_neg (show ¬((li : Int) = -1) by omega)]

theorem replace_loop_spec (to_replace replace_by : List Nat)
    (hne : to_replace ≠ []) (hnOK : CStrOK to_replace)
    (hrOK : CStrOK replace_by) :
    ∀ (fuel : Nat) (b : Brin) (offset : Int), Live b →
      0 ≤ offset → offset.toNat ≤ b.length →
      b.length - offset.toNat < fuel →
      ∃ b', replace_loop to_replace replace_by fuel b offset = some b' ∧
        Live b' ∧
        content b' = (content b).take offset.toNat ++
          specReplaceAll to_replace replace_by
            ((content b).drop offset.toNat) := by
  intro fuel
  induction fuel with
  | zero => intro b offset hb h0 h1 h2; omega
  | succ fuel ih =>
    intro b offset hb h0 h1 h2
    have hL := hb.content_length
    have hnnb := noNull_of_cStrOK hb.cStrOK
    have hnn := noNull_of_cStrOK hnOK
    have hnr := noNull_of_cStrOK hrOK
    have hln : strlenB to_replace = to_replace.length := strlenB_eq hnn
    have hlr : strlenB replace_by = replace_by.length := strlenB_eq hnr
    have hdropstr : b.string.drop offset.toNat =
        (content b).drop offset.toNat ++ [0] := by
      rw [hb.string_eq, List.drop_append_eq_append_drop, hL,
        Nat.sub_eq_zero_of_le h1]
      simp
    have hinner : cstrB ((content b).drop offset.toNat ++ [0]) =
        (content b).drop offset.toNat :=
      cstrB_append_zero (fun x hx => hnnb x (List.drop_subset _ _ hx))
    have htempstr : cstrB (brin_new (b.string.drop offset.toNat)).string =
        (content b).drop offset.toNat := by
      show cstrB (cstrB (b.string.drop offset.toNat) ++ [0]) = _
      rw [hdropstr, hinner, hinner]
    cases hfind : strstrIdx ((content b).drop offset.toNat) to_replace with
    | none =>
      have hidx : brin_index_of (brin_new (b.string.drop offset.toNat))
          to_replace = -1 := by
        unfold brin_index_of
        rw [htempstr, cstrB_eq_self hnn, hfind]
      refine ⟨b, replace_loop_not_found hidx, hb, ?_⟩
      rw [specReplaceAll_no_occ hne (strstrIdx_none hfind),
        List.take_append_drop]
    | some li =>
      have hidx : brin_index_of (brin_new (b.string.drop offset.toNat))
          to_replace = (li : Int) := by
        unfold brin_index_of
        rw [htempstr, cstrB_eq_self hnn, hfind]
      obtain ⟨hpre, hmin⟩ := strstrIdx_some hfind
      have hslen : ((content b).drop offset.toNat).length =
          b.length - offset.toNat := by simp [hL]
      have hnlen : 0 < to_replace.length := List.length_pos.mpr hne
      have hfitlen := hpre.length_le
      rw [List.length_drop, hslen] at hfitlen
      have hfit : offset.toNat + li + to_replace.length ≤ b.length := by
        omega
      have hlnz : (strlenB to_replace : Int) = (to_replace.length : Int) := by
        rw [hln]
      have hlrz : (strlenB replace_by : Int) = (replace_by.length : Int) := by
        rw [hlr]
      set A := (content b).take (offset.toNat + li) with hA
      set B := (content b).drop (offset.toNat + li + to_replace.length)
        with hB
      have hAlen : A.length = offset.toNat + li := by
        rw [hA]; simp [hL]; omega
      have hBlen : B.length = b.length -
          (offset.toNat + li + to_replace.length) := by rw [hB]; simp [hL]
      -- the removal step
      have hrem := brin_remove_eq hb
        (s := offset + (li : Int))
        (e := offset + (li : Int) + (strlenB to_replace : Int))
        (by omega) (by omega) (by omega)
      have hg : (offset + (li : Int)).toNat = offset.toNat + li := by omega
      have he : (offset + (li : Int) + (strlenB to_replace : Int)).toNat =
          offset.toNat + li + to_replace.length := by omega
      rw [hg, he, ← hA, ← hB] at hrem
      have hremlen : b.length - (offset.toNat + li + to_replace.length -
          (offset.toNat + li)) = (A ++ B).length := by
        simp [hAlen, hBlen]
        omega
      rw [hremlen] at hrem
      have hb1live : Live { string := A ++ B ++ [0]
                            length := (A ++ B).length } :=
        live_mk (by
          rw [hA, hB]
          exact cStrOK_append (cStrOK_take hb.cStrOK _)
            (cStrOK_drop hb.cStrOK _))
      -- the insertion step
      have hins := brin_insert_eq hb1live (i := offset + (li : Int))
        (t := replace_by) hnr (by omega)
        (by show offset + (li : Int) ≤ ((A ++ B).length : Int)
            simp [hAlen, hBlen]
            omega)
      rw [hg, content_mk (A ++ B), List.take_left' hAlen,
        List.drop_left' hAlen] at hins
      have hinslen : (A ++ B).length + replace_by.length =
          (A ++ replace_by ++ B).length := by simp; omega
      rw [hinslen] at hins
      have hb2live : Live { string := A ++ replace_by ++ B ++ [0]
                            length := (A ++ replace_by ++ B).length } :=
        live_mk (by
          rw [hA, hB]
          exact cStrOK_append
            (cStrOK_append (cStrOK_take hb.cStrOK _) hrOK)
            (cStrOK_drop hb.cStrOK _))
      have hXlen : (A ++ replace_by ++ B).length =
          b.length - to_replace.length + replace_by.length := by
        simp [hAlen, hBlen]
        omega
      -- the recursive call
      have ho2 : (offset + (li : Int) + (strlenB replace_by : Int)).toNat =
          offset.toNat + li + replace_by.length := by omega
      obtain ⟨b', hloop, hlive', hcontent'⟩ :=
        ih { string := A ++ replace_by ++ B ++ [0]
             length := (A ++ replace_by ++ B).length }
          (offset + (li : Int) + (strlenB replace_by : Int)) hb2live
          (by omega)
          (by show _ ≤ (A ++ replace_by ++ B).length
              rw [ho2, hXlen]; omega)
          (by show (A ++ replace_by ++ B).length - _ < fuel
              rw [ho2, hXlen]; omega)
      refine ⟨b', ?_, hlive', ?_⟩
      · rw [replace_loop_found hidx]
        simp only [hrem, hins]
        exact hloop
      · rw [hcontent', content_mk (A ++ replace_by ++ B), ho2]
        have htk2 : (A ++ replace_by ++ B).take
            (offset.toNat + li + replace_by.length) = A ++ replace_by :=
          List.take_left' (by simp [hAlen])
        have hdp2 : (A ++ replace_by ++ B).drop
            (offset.toNat + li + replace_by.length) = B :=
          List.drop_left' (by simp [hAlen])
        rw [htk2, hdp2]
        rw [specReplaceAll_step hne li ((content b).drop offset.toNat)
          hpre hmin]
        have htkA : (content b).take offset.toNat ++
            ((content b).drop offset.toNat).take li = A := by
          rw [hA, ← List.take_add]
        have hdpB : ((content b).drop offset.toNat).drop
            (li + to_replace.length) = B := by
          rw [hB, List.drop_drop]
          rw [show offset.toNat + (li + to_replace.length) =
            offset.toNat + li + to_replace.length by omega]
        rw [← htkA, ← hdpB]
        simp [List.append_assoc]

theorem brin_replace_spec {b : Brin} {to_replace replace_by : List Nat}
    (hb : Live b) (hnOK : CStrOK to_replace) (hrOK : CStrOK replace_by)
    (hne : to_replace ≠ []) :
    ∃ b', brin_replace b to_replace replace_by = some b' ∧ Live b' ∧
      content b' = specReplaceAll to_replace replace_by (content b) := by
  have hhead : (to_replace.headD 0 == 0) = false := by
    cases to_replace with
    | nil => exact absurd rfl hne
    | cons c rest =>
      have : c ≠ 0 := (hnOK c (by simp)).1
      simpa using this
  obtain ⟨b', hloop, hlive, hcontent⟩ :=
    replace_loop_spec to_replace replace_by hne hnOK hrOK
      (b.length + 1) b 0 hb (by omega) (by simp) (by simp)
  refine ⟨b', ?_, hlive, ?_⟩
  · unfold brin_replace
    rw [hhead]
    simpa using hloop
  · simpa using hcontent

/-- C1: `brin_replace` replaces every non-overlapping left-to-right
occurrence of the needle present at scan time, never rescanning inserted
text (`specReplaceAll` is exactly that specification); in particular
`replace(new("aXaXa"), "a", "bb")` yields the buffer `"bbXbbXbb"`. -/
theorem replace_correct_c1 :
    (∀ (b : Brin) (to_replace replace_by : List Nat),
      Live b → CStrOK to_replace → CStrOK replace_by → to_replace ≠ [] →
      ∃ b', brin_replace b to_replace replace_by = some b' ∧ Live b' ∧
        content b' = specReplaceAll to_replace replace_by (content b)) ∧
    brin_replace (brin_new [97, 88, 97, 88, 97]) [97] [98, 98] =
      some (brin_new [98, 98, 88, 98, 98, 88, 98, 98]) := by
  constructor
  · intro b to_replace replace_by hb hn hr hne
    exact brin_replace_spec hb hn hr hne
  · decide

/-- Witness for C1: the general clause applied to the concrete buffer
`"aXaXa"` with needle `"a"` and replacement `"bb"`. -/
theorem replace_correct_c1_witness :
    Live (brin_new [97, 88, 97, 88, 97]) ∧
    ∃ b', brin_replace (brin_new [97, 88, 97, 88, 97]) [97] [98, 98] =
        some b' ∧ Live b' ∧
      content b' = specReplaceAll [97] [98, 98]
        (content (brin_new [97, 88, 97, 88, 97])) :=
  ⟨by decide, replace_correct_c1.1 (brin_new [97, 88, 97, 88, 97])
    [97] [98, 98] (by decide) (by decide) (by decide) (by decide)⟩

/-- C5: on a live buffer, with a nonempty needle, the scan loop of
`brin_replace` terminates for every replacement (even one containing the
needle, or the empty one): the loop exits within the fuel bound
`length + 1`, so the operation returns. -/
theorem replace_terminates_c5 (b : Brin) (to_replace replace_by : List Nat)
    (hb : Live b) (hnOK : CStrOK to_replace) (hrOK : CStrOK replace_by)
    (hne : to_replace ≠ []) :
    (brin_replace b to_replace replace_by).isSome = true := by
  obtain ⟨b', heq, _, _⟩ := brin_replace_spec hb hnOK hrOK hne
  rw [heq]
  rfl

/-- Witness for C5: termination on a buffer whose replacement contains the
needle (`replace(new("aa"), "a", "ba")`). -/
theorem replace_terminates_c5_witness :
    Live (brin_new [97, 97]) ∧
    (brin_replace (brin_new [97, 97]) [97] [98, 97]).isSome = true :=
  ⟨by decide, replace_terminates_c5 (brin_new [97, 97]) [97] [98, 97]
    (by decide) (by decide) (by decide) (by decide)⟩

/-- C2 (code bug): when `malloc` fails inside `brin_remove` on a live
buffer with a valid range, the source does a bare `return` -- the call
returns normally with the buffer unchanged (a silent no-op) instead of
terminating the process as the specification requires. -/
theorem remove_alloc_failure_c2 :
    brin_remove_oom false (brin_new [97, 98, 99]) 1 2 =
      some (brin_new [97, 98, 99]) := by
  decide

/-- C4: inserting `text` at a valid index and then removing the range
`[index, index + len(text))` restores the original buffer content and
length. -/
theorem insert_remove_inverse_c4 :
    ∀ (b : Brin) (i : Int) (text : List Nat),
    Live b → CStrOK text → text ≠ [] → 0 ≤ i → i ≤ (b.length : Int) →
    ∃ b1 b2, brin_insert b i text = some b1 ∧
      brin_remove b1 i (i + (text.length : Int)) = some b2 ∧
      content b2 = content b ∧ b2.length = b.length := by
  intro b i text hb ht hne h0 h1
  have hL := hb.content_length
  have hi : i.toNat ≤ b.length := by omega
  set A := (content b).take i.toNat with hA
  set D := (content b).drop i.toNat with hD
  have hAlen : A.length = i.toNat := by rw [hA]; simp [hL]; omega
  have hDlen : D.length = b.length - i.toNat := by rw [hD]; simp [hL]
  have hins := brin_insert_eq hb (noNull_of_cStrOK ht) h0 h1
  rw [← hA, ← hD] at hins
  have hXlen : b.length + text.length = (A ++ text ++ D).length := by
    simp [hAlen, hDlen]
    omega
  rw [hXlen] at hins
  have hb1live : Live { string := A ++ text ++ D ++ [0]
                        length := (A ++ text ++ D).length } := by
    apply live_mk
    rw [hA, hD]
    exact cStrOK_append (cStrOK_append (cStrOK_take hb.cStrOK _) ht)
      (cStrOK_drop hb.cStrOK _)
  have hrem := brin_remove_eq hb1live (s := i) (e := i + (text.length : Int))
    h0 (by omega)
    (by show i + (text.length : Int) ≤ ((A ++ text ++ D).length : Int)
        simp [hAlen, hDlen]
        omega)
  rw [content_mk (A ++ text ++ D)] at hrem
  have hen : (i + (text.length : Int)).toNat = i.toNat + text.length := by
    omega
  rw [hen] at hrem
  have htk : (A ++ text ++ D).take i.toNat = A := by
    rw [List.append_assoc]
    exact List.take_left' hAlen
  have hdp : (A ++ text ++ D).drop (i.toNat + text.length) = D :=
    List.drop_left' (by simp [hAlen])
  rw [htk, hdp] at hrem
  have hlen2 : (A ++ text ++ D).length - (i.toNat + text.length - i.toNat) =
      (A ++ D).length := by
    simp [hAlen, hDlen]
    omega
  rw [hlen2] at hrem
  refine ⟨_, _, hins, hrem, ?_, ?_⟩
  · rw [content_mk (A ++ D), hA, hD, List.take_append_drop]
  · show (A ++ D).length = b.length
    simp [hAlen, hDlen]
    omega

/-- Witness for C4: insert `"b"` into `"ac"` at index 1 and remove it
again. -/
theorem insert_remove_inverse_c4_witness :
    Live (brin_new [97, 99]) ∧
    ∃ b1 b2, brin_insert (brin_new [97, 99]) 1 [98] = some b1 ∧
      brin_remove b1 1 (1 + ((1 : Nat) : Int)) = some b2 ∧
      content b2 = content (brin_new [97, 99]) ∧
      b2.length = (brin_new [97, 99]).length :=
  ⟨by decide, insert_remove_inverse_c4 (brin_new [97, 99]) 1 [98]
    (by decide) (by decide) (by decide) (by decide) (by decide)⟩

/-- C6: on a live buffer `brin_is_whitespace` returns 1 exactly when the
buffer is nonempty and every content byte is whitespace; the empty buffer
is not whitespace-only while `brin_is_empty` does hold of it. -/
theorem is_whitespace_iff_c6 :
    (∀ b : Brin, Live b → (brin_is_whitespace b = true ↔
      0 < b.length ∧ ∀ c ∈ content b, isspaceB c = true)) ∧
    brin_is_whitespace (brin_new []) = false ∧
    brin_is_empty (brin_new []) = true := by
  refine ⟨?_, by decide, by decide⟩
  intro b hb
  have hL := hb.content_length
  have hgetD : ∀ i, i < b.length → b.string.getD i 0 = (content b).getD i 0 := by
    intro i hi
    unfold content
    rw [List.getD_eq_getElem?_getD, List.getD_eq_getElem?_getD,
      List.getElem?_take_of_lt hi]
  unfold brin_is_whitespace
  by_cases h0 : b.length = 0
  · simp [h0]
  · rw [if_neg (by simpa using h0), List.all_eq_true]
    constructor
    · intro hall
      refine ⟨by omega, ?_⟩
      intro c hc
      obtain ⟨i, hilt, hval⟩ := List.mem_iff_getElem.mp hc
      have hiL : i < b.length := by
        have := hilt
        simp [hL] at this
        omega
      have h1 := hall i (List.mem_range.mpr hiL)
      rw [hgetD i hiL] at h1
      rw [List.getD_eq_getElem?_getD, List.getElem?_eq_getElem hilt, hval]
        at h1
      simpa using h1
    · rintro ⟨hpos, hall⟩ i hi
      rw [List.mem_range] at hi
      have hilt : i < (content b).length := by omega
      rw [hgetD i hi, List.getD_eq_getElem?_getD,
        List.getElem?_eq_getElem hilt]
      have := hall ((content b)[i]) (List.getElem_mem hilt)
      simpa using this

/-- Witness for C6: the general clause applied to the live buffer
`" \t"`. -/
theorem is_whitespace_iff_c6_witness :
    Live (brin_new [32, 9]) ∧
    (brin_is_whitespace (brin_new [32, 9]) = true ↔
      0 < (brin_new [32, 9]).length ∧
      ∀ c ∈ content (brin_new [32, 9]), isspaceB c = true) :=
  ⟨by decide, is_whitespace_iff_c6.1 (brin_new [32, 9]) (by decide)⟩

/-- C10: the searches accept the empty pattern -- `index_of` returns 0 and
`contains` returns 1 on every buffer -- while `replace` alone rejects it
fatally. -/
theorem empty_pattern_c10 : ∀ (b : Brin) (replace_by : List Nat),
    brin_index_of b [] = 0 ∧ brin_contains b [] = true ∧
    brin_replace b [] replace_by = none := by
  intro b replace_by
  have hcn : cstrB ([] : List Nat) = [] := rfl
  have hidx : strstrIdx (cstrB b.string) [] = some 0 :=
    strstrIdx_pos (by simp [List.isPrefixOf])
  refine ⟨?_, ?_, ?_⟩
  · unfold brin_index_of
    rw [hcn, hidx]
    rfl
  · unfold brin_contains
    rw [hcn, hidx]
    rfl
  · rfl

theorem scanBackWs_all_ws {l : List Nat} :
    ∀ n, (∀ i, i < n → isspaceB (l.getD i 0) = true) →
      scanBackWs l n = 0 := by
  intro n
  induction n with
  | zero => intro _; rfl
  | succ m ih =>
    intro h
    unfold scanBackWs
    rw [if_pos (h m (by omega))]
    exact ih (fun i hi => h i (by omega))

theorem scanBackWs_take (l : List Nat) :
    ∀ n m : Nat, n ≤ m → scanBackWs (l.take m) n = scanBackWs l n := by
  intro n
  induction n with
  | zero => intro m _; rfl
  | succ k ih =>
    intro m h
    unfold scanBackWs
    have hg : (l.take m).getD k 0 = l.getD k 0 := by
      rw [List.getD_eq_getElem?_getD, List.getD_eq_getElem?_getD,
        List.getElem?_take_of_lt (by omega)]
    rw [hg, ih m (by omega)]

/-- C9: a live buffer whose bytes are all whitespace (the empty buffer
included) trims to length 0, under both `brin_trim_end` and `brin_trim`;
and the backward scan only ever reads bytes at indices below its starting
bound (its result is unchanged when the block is truncated at any point at
or past that bound). -/
theorem trim_whitespace_c9 :
    (∀ b : Brin, Live b → (∀ c ∈ content b, isspaceB c = true) →
      (brin_trim_end b).length = 0 ∧ (brin_trim b).length = 0) ∧
    (∀ (l : List Nat) (n m : Nat), n ≤ m →
      scanBackWs (l.take m) n = scanBackWs l n) := by
  constructor
  · intro b hb hws
    have hL := hb.content_length
    have hscan : scanBackWs b.string b.length = 0 := by
      apply scanBackWs_all_ws
      intro i hi
      have hgd : b.string.getD i 0 = (content b).getD i 0 := by
        unfold content
        rw [List.getD_eq_getElem?_getD, List.getD_eq_getElem?_getD,
          List.getElem?_take_of_lt hi]
      have hilt : i < (content b).length := by omega
      rw [hgd, List.getD_eq_getElem?_getD, List.getElem?_eq_getElem hilt]
      exact hws _ (List.getElem_mem hilt)
    have hend := brin_trim_end_eq hb
    rw [hscan] at hend
    simp only [List.take_zero, List.nil_append] at hend
    constructor
    · rw [hend]
    · unfold brin_trim
      rw [hend]
      decide
  · exact scanBackWs_take

/-- Witness for C9: the all-whitespace buffer `"  "` trims to length 0. -/
theorem trim_whitespace_c9_witness :
    Live (brin_new [32, 32]) ∧
    ((brin_trim_end (brin_new [32, 32])).length = 0 ∧
      (brin_trim (brin_new [32, 32])).length = 0) :=
  ⟨by decide, trim_whitespace_c9.1 (brin_new [32, 32]) (by decide)
    (by decide)⟩

/-- C3: after every successful mutating operation on a live buffer with
arguments meeting its preconditions, the tracked length equals the
`strlen` of the block and the byte at that index is the terminator. -/
theorem length_invariant_c3 :
    (∀ (b : Brin) (suffix : List Nat), Live b → CStrOK suffix →
      lenInv (brin_concat b suffix)) ∧
    (∀ (b : Brin) (i : Int) (text : List Nat) (b' : Brin), Live b →
      CStrOK text → brin_insert b i text = some b' → lenInv b') ∧
    (∀ (b : Brin) (s e : Int) (b' : Brin), Live b →
      brin_remove b s e = some b' → lenInv b') ∧
    (∀ (b : Brin) (to_replace replace_by : List Nat) (b' : Brin), Live b →
      CStrOK to_replace → CStrOK replace_by →
      brin_replace b to_replace replace_by = some b' → lenInv b') ∧
    (∀ b : Brin, Live b → lenInv (brin_to_lower b)) ∧
    (∀ b : Brin, Live b → lenInv (brin_to_upper b)) ∧
    (∀ b : Brin, Live b → lenInv (brin_trim_start b)) ∧
    (∀ b : Brin, Live b → lenInv (brin_trim_end b)) ∧
    (∀ b : Brin, Live b → lenInv (brin_trim b)) := by
  refine ⟨?_, ?_, ?_, ?_, ?_, ?_, ?_, ?_, ?_⟩
  · intro b suffix hb hs
    exact (live_brin_concat hb hs).lenInv
  · intro b i text b' hb ht hsucc
    by_cases hc : i < 0 ∨ (b.length : Int) < i
    · unfold brin_insert at hsucc
      rw [if_pos hc] at hsucc
      exact absurd hsucc (by simp)
    · push_neg at hc
      rw [brin_insert_eq hb (noNull_of_cStrOK ht) hc.1 hc.2] at hsucc
      injection hsucc with hsucc
      rw [← hsucc]
      exact (live_brin_insert hb ht hc.1 hc.2).lenInv
  · intro b s e b' hb hsucc
    by_cases hc : s < 0 ∨ e < s ∨ (b.length : Int) < e
    · unfold brin_remove brin_remove_oom at hsucc
      rw [if_pos hc] at hsucc
      exact absurd hsucc (by simp)
    · push_neg at hc
      rw [brin_remove_eq hb hc.1 hc.2.1 hc.2.2] at hsucc
      injection hsucc with hsucc
      rw [← hsucc]
      exact (live_brin_remove hb hc.1 hc.2.1 hc.2.2).lenInv
  · intro b to_replace replace_by b' hb hn hr hsucc
    cases hne : to_replace with
    | nil =>
      rw [hne] at hsucc
      exact absurd hsucc (by simp [brin_replace])
    | cons c rest =>
      obtain ⟨b'', heq, hlive, _⟩ := brin_replace_spec hb hn hr
        (by rw [hne]; simp)
      rw [heq] at hsucc
      injection hsucc with hsucc
      rw [← hsucc]
      exact hlive.lenInv
  · intro b hb
    exact (live_brin_to_lower hb).lenInv
  · intro b hb
    exact (live_brin_to_upper hb).lenInv
  · intro b hb
    exact (live_brin_trim_start hb).lenInv
  · intro b hb
    exact (live_brin_trim_end hb).lenInv
  · intro b hb
    exact (live_brin_trim hb).lenInv

/-- Witness for C3: each clause instantiated on small live buffers. -/
theorem length_invariant_c3_witness :
    lenInv (brin_concat (brin_new [97]) [98]) ∧
    lenInv (brin_new [98, 97]) ∧
    lenInv (brin_new []) ∧
    lenInv (brin_new [98]) ∧
    lenInv (brin_to_lower (brin_new [97])) ∧
    lenInv (brin_to_upper (brin_new [97])) ∧
    lenInv (brin_trim_start (brin_new [32, 97])) ∧
    lenInv (brin_trim_end (brin_new [97, 32])) ∧
    lenInv (brin_trim (brin_new [32, 97, 32])) :=
  ⟨length_invariant_c3.1 (brin_new [97]) [98] (by decide) (by decide),
   length_invariant_c3.2.1 (brin_new [97]) 0 [98] (brin_new [98, 97])
     (by decide) (by decide) (by decide),
   length_invariant_c3.2.2.1 (brin_new [97]) 0 1 (brin_new [])
     (by decide) (by decide),
   length_invariant_c3.2.2.2.1 (brin_new [97]) [97] [98] (brin_new [98])
     (by decide) (by decide) (by decide) (by decide),
   length_invariant_c3.2.2.2.2.1 (brin_new [97]) (by decide),
   length_invariant_c3.2.2.2.2.2.1 (brin_new [97]) (by decide),
   length_invariant_c3.2.2.2.2.2.2.1 (brin_new [32, 97]) (by decide),
   length_invariant_c3.2.2.2.2.2.2.2.1 (brin_new [97, 32]) (by decide),
   length_invariant_c3.2.2.2.2.2.2.2.2 (brin_new [32, 97, 32]) (by decide)⟩

/-! Tokenizing: splitRuns versus the literal empty-field split. -/

theorem splitRuns_nil (sepl : List Nat) : splitRuns sepl [] = [] := by
  rw [splitRuns]

theorem splitRuns_cons_delim {sepl : List Nat} {c : Nat} {rest : List Nat}
    (h : sepl.contains c = true) :
    splitRuns sepl (c :: rest) = splitRuns sepl rest := by
  rw [splitRuns]
  simp only [h, if_true]

theorem splitRuns_cons_tok {sepl : List Nat} {c : Nat} {rest : List Nat}
    (h : sepl.contains c = false) :
    splitRuns sepl (c :: rest) =
      (c :: rest.takeWhile (fun d => !sepl.contains d)) ::
        splitRuns sepl (rest.dropWhile (fun d => !sepl.contains d)) := by
  rw [splitRuns]
  simp only [h]
  rfl

theorem specSplitLiteral_ht (p : Nat → Bool) (l : List Nat) :
    specSplitLiteral p l = l.takeWhile (fun c => !p c) ::
      (if (l.dropWhile (fun c => !p c)).isEmpty then []
       else specSplitLiteral p (l.dropWhile (fun c => !p c)).tail) := by
  induction l with
  | nil => simp [specSplitLiteral]
  | cons c rest ih =>
    by_cases hp : p c
    · simp [specSplitLiteral, hp, List.takeWhile_cons, List.dropWhile_cons]
    · simp only [specSplitLiteral, hp, Bool.false_eq_true, if_false, ih,
        List.takeWhile_cons, List.dropWhile_cons]
      simp [hp]

theorem specSplitLiteral_ne_nil (p : Nat → Bool) (l : List Nat) :
    specSplitLiteral p l ≠ [] := by
  rw [specSplitLiteral_ht]
  simp

theorem specSplitLiteral_mem {p : Nat → Bool} :
    ∀ {l t : List Nat}, t ∈ specSplitLiteral p l → ∀ c ∈ t, p c = false := by
  intro l
  induction l with
  | nil =>
    intro t ht c hc
    simp [specSplitLiteral] at ht
    subst ht
    simp at hc
  | cons a rest ih =>
    intro t ht c hc
    by_cases hp : p a
    · simp only [specSplitLiteral, hp, if_true] at ht
      rcases List.mem_cons.mp ht with h | h
      · subst h; simp at hc
      · exact ih h c hc
    · simp only [specSplitLiteral, hp, Bool.false_eq_true, if_false] at ht
      cases hmatch : specSplitLiteral p rest with
      | nil => exact absurd hmatch (specSplitLiteral_ne_nil p rest)
      | cons t0 ts =>
        rw [hmatch] at ht
        rcases List.mem_cons.mp ht with h | h
        · subst h
          rcases List.mem_cons.mp hc with h2 | h2
          · subst h2; simpa using hp
          · exact ih (hmatch ▸ List.mem_cons_self t0 ts) c h2
        · exact ih (hmatch ▸ List.mem_cons_of_mem t0 h) c hc

theorem dropWhile_head_false {p : Nat → Bool} :
    ∀ {l : List Nat} {d : Nat} {r : List Nat},
      l.dropWhile p = d :: r → p d = false := by
  intro l
  induction l with
  | nil => intro d r h; simp at h
  | cons a t ih =>
    intro d r h
    rw [List.dropWhile_cons] at h
    by_cases hp : p a
    · rw [if_pos (by simpa using hp)] at h
      exact ih h
    · rw [if_neg (by simpa using hp)] at h
      injection h with h1 _
      subst h1
      simpa using hp

theorem splitRuns_eq_filter (sepl : List Nat) :
    ∀ l, splitRuns sepl l =
      (specSplitLiteral (fun c => sepl.contains c) l).filter
        (fun t => !t.isEmpty) := by
  have H : ∀ (n : Nat) (l : List Nat), l.length ≤ n →
      splitRuns sepl l =
        (specSplitLiteral (fun c => sepl.contains c) l).filter
          (fun t => !t.isEmpty) := by
    intro n
    induction n with
    | zero =>
      intro l hl
      have hnil : l = [] := List.length_eq_zero.mp (by omega)
      subst hnil
      simp [splitRuns_nil, specSplitLiteral]
    | succ n ih =>
      intro l hl
      cases l with
      | nil => simp [splitRuns_nil, specSplitLiteral]
      | cons c rest =>
        by_cases hp : sepl.contains c
        · rw [splitRuns_cons_delim hp, ih rest (by simp at hl; omega)]
          simp only [specSplitLiteral, hp, if_true]
          simp
        · have hpb : sepl.contains c = false := by simpa using hp
          have hqc : (fun x => !sepl.contains x) c = true := by
            show (!sepl.contains c) = true
            rw [hpb]
            rfl
          rw [splitRuns_cons_tok hpb,
            specSplitLiteral_ht (fun x => sepl.contains x) (c :: rest)]
          have hhead : List.takeWhile (fun x => !sepl.contains x) (c :: rest)
              = c :: List.takeWhile (fun x => !sepl.contains x) rest := by
            rw [List.takeWhile_cons, if_pos hqc]
          have htail : List.dropWhile (fun x => !sepl.contains x) (c :: rest)
              = List.dropWhile (fun x => !sepl.contains x) rest := by
            rw [List.dropWhile_cons, if_pos hqc]
          rw [hhead, htail]
          cases hmatch : List.dropWhile (fun x => !sepl.contains x) rest with
          | nil =>
            rw [splitRuns_nil]
            simp
          | cons d r =>
            have hdel : sepl.contains d = true := by
              have h2 := dropWhile_head_false hmatch
              simpa using h2
            rw [splitRuns_cons_delim hdel]
            have hrlen : r.length ≤ n := by
              have hsub := (List.dropWhile_sublist (l := rest)
                (fun x => !sepl.contains x)).length_le
              rw [hmatch] at hsub
              simp at hsub hl
              omega
            rw [ih r hrlen]
            simp
  intro l
  exact H l.length l (Nat.le_refl _)

/-- C7: `brin_split` treats each byte of the separator as a delimiter-set
member; its result equals the literal empty-field split with all empty
fields removed (consecutive delimiters collapse), every returned token is
nonempty and delimiter-free, and `split(new("a,,b"), ",")` yields exactly
`["a", "b"]`. -/
theorem split_collapses_c7 :
    (∀ (b : Brin) (sep : List Nat), Live b → CStrOK sep →
      brin_split b sep =
        (specSplitLiteral (fun c => sep.contains c) (content b)).filter
          (fun t => !t.isEmpty) ∧
      ∀ t ∈ brin_split b sep, t ≠ [] ∧ ∀ c ∈ t, sep.contains c = false) ∧
    brin_split (brin_new [97, 44, 44, 98]) [44] = [[97], [98]] := by
  constructor
  · intro b sep hb hsep
    have hsplit : brin_split b sep = splitRuns sep (content b) := by
      unfold brin_split
      rw [hb.cstrB_string, cstrB_eq_self (noNull_of_cStrOK hsep)]
    constructor
    · rw [hsplit, splitRuns_eq_filter]
    · intro t ht
      rw [hsplit, splitRuns_eq_filter] at ht
      have hmem := List.mem_filter.mp ht
      constructor
      · intro hcon
        rw [hcon] at hmem
        simp at hmem
      · exact specSplitLiteral_mem hmem.1
  · have h : brin_split (brin_new [97, 44, 44, 98]) [44] =
        splitRuns [44] [97, 44, 44, 98] := rfl
    rw [h, splitRuns_eq_filter]
    decide

/-- Witness for C7: the general clause applied to the live buffer
`"a,,b"` with separator `","`. -/
theorem split_collapses_c7_witness :
    Live (brin_new [97, 44, 44, 98]) ∧
    (brin_split (brin_new [97, 44, 44, 98]) [44] =
      (specSplitLiteral (fun c => [44].contains c)
        (content (brin_new [97, 44, 44, 98]))).filter
          (fun t => !t.isEmpty) ∧
    ∀ t ∈ brin_split (brin_new [97, 44, 44, 98]) [44],
      t ≠ [] ∧ ∀ c ∈ t, [44].contains c = false) :=
  ⟨by decide, split_collapses_c7.1 (brin_new [97, 44, 44, 98]) [44]
    (by decide) (by decide)⟩

/-! Round-tripping join with split. -/

theorem splitRuns_append_token {sepl x s : List Nat} (hx : x ≠ [])
    (hfree : ∀ c ∈ x, sepl.contains c = false)
    (hsd : ∀ d, s.head? = some d → sepl.contains d = true) :
    splitRuns sepl (x ++ s) = x :: splitRuns sepl s := by
  cases x with
  | nil => exact absurd rfl hx
  | cons c x' =>
    rw [List.cons_append, splitRuns_cons_tok (hfree c (by simp))]
    have hall : ∀ a ∈ x', (fun d => !sepl.contains d) a = true := by
      intro a ha
      have h2 := hfree a (by simp [ha])
      simpa using h2
    have htw : (x' ++ s).takeWhile (fun d => !sepl.contains d) = x' := by
      rw [List.takeWhile_append_of_pos hall]
      cases s with
      | nil => simp
      | cons d r =>
        rw [List.takeWhile_cons,
          if_neg (by simpa using hsd d rfl)]
        simp
    have hdw : (x' ++ s).dropWhile (fun d => !sepl.contains d) = s := by
      rw [List.dropWhile_append_of_pos hall]
      cases s with
      | nil => simp
      | cons d r =>
        rw [List.dropWhile_cons,
          if_neg (by simpa using hsd d rfl)]
    rw [htw, hdw]

theorem splitRuns_delims {sepl : List Nat} :
    ∀ {d : List Nat} (s : List Nat), (∀ c ∈ d, sepl.contains c = true) →
      splitRuns sepl (d ++ s) = splitRuns sepl s := by
  intro d
  induction d with
  | nil => intro s _; rfl
  | cons a t ih =>
    intro s hall
    rw [List.cons_append, splitRuns_cons_delim (hall a (by simp))]
    exact ih s (fun c hc => hall c (by simp [hc]))

theorem content_brin_concat {b : Brin} (hb : Live b) {suffix : List Nat}
    (hs : NoNull suffix) :
    content (brin_concat b suffix) = content b ++ suffix ∧
      (brin_concat b suffix).length = b.length + suffix.length := by
  have e := brin_concat_eq hb hs
  have hxlen : b.length + suffix.length = (content b ++ suffix).length := by
    simp [hb.content_length]
  constructor
  · rw [e, hxlen]
    exact content_mk (content b ++ suffix)
  · rw [e]

theorem brin_join_loop_content :
    ∀ (items : List (List Nat)) (b : Brin) (sep : List Nat), Live b →
      CStrOK sep → (∀ t ∈ items, CStrOK t) →
      Live (brin_join_loop sep b items) ∧
      content (brin_join_loop sep b items) =
        content b ++ joinAux sep items := by
  intro items
  induction items with
  | nil =>
    intro b sep hb _ _
    exact ⟨hb, by simp [brin_join_loop, joinAux]⟩
  | cons x xs ih =>
    intro b sep hb hsep hall
    have hxok : CStrOK x := hall x (by simp)
    have hb1 : Live (brin_concat b x) := live_brin_concat hb hxok
    cases xs with
    | nil =>
      have hloop : brin_join_loop sep b [x] = brin_concat b x := rfl
      have hja : joinAux sep [x] = x := rfl
      rw [hloop, hja]
      exact ⟨hb1, (content_brin_concat hb (noNull_of_cStrOK hxok)).1⟩
    | cons y ys =>
      have hb2 : Live (brin_concat (brin_concat b x) sep) :=
        live_brin_concat hb1 hsep
      have hrec := ih (brin_concat (brin_concat b x) sep) sep hb2 hsep
        (fun t ht => hall t (by simp [ht]))
      have hloop : brin_join_loop sep b (x :: y :: ys) =
          brin_join_loop sep (brin_concat (brin_concat b x) sep)
            (y :: ys) := by
        rw [brin_join_loop]
        simp only [List.isEmpty_cons, Bool.false_eq_true, if_false]
      have hja : joinAux sep (x :: y :: ys) =
          x ++ sep ++ joinAux sep (y :: ys) := rfl
      rw [hloop, hja]
      refine ⟨hrec.1, ?_⟩
      rw [hrec.2, (content_brin_concat hb1 (noNull_of_cStrOK hsep)).1,
        (content_brin_concat hb (noNull_of_cStrOK hxok)).1]
      simp [List.append_assoc]

theorem splitRuns_joinAux :
    ∀ (items : List (List Nat)) (sepl : List Nat), sepl ≠ [] →
      (∀ t ∈ items, t ≠ [] ∧ ∀ c ∈ t, sepl.contains c = false) →
      splitRuns sepl (joinAux sepl items) = items := by
  intro items
  induction items with
  | nil => intro sepl _ _; simp [joinAux, splitRuns_nil]
  | cons x xs ih =>
    intro sepl hs hall
    have hx := hall x (by simp)
    cases xs with
    | nil =>
      show splitRuns sepl x = [x]
      rw [show x = x ++ [] by simp]
      rw [splitRuns_append_token (by simpa using hx.1)
        (fun c hc => hx.2 c (by simpa using hc)) (by simp)]
      rw [splitRuns_nil]
      simp
    | cons y ys =>
      show splitRuns sepl (x ++ sepl ++ joinAux sepl (y :: ys)) = _
      rw [List.append_assoc]
      rw [splitRuns_append_token hx.1 hx.2 ?hd]
      case hd =>
        intro d hd
        cases sepl with
        | nil => exact absurd rfl hs
        | cons a t =>
          rw [List.cons_append] at hd
          injection hd with hd
          subst hd
          simp
      rw [splitRuns_delims (joinAux sepl (y :: ys)) (fun c hc => by
        simp [hc])]
      rw [ih sepl hs (fun t ht => hall t (by simp [ht]))]

/-- C8: splitting the join of nonempty, delimiter-free items on a
nonempty separator returns exactly the original items, in order. -/
theorem split_join_roundtrip_c8 :
    ∀ (items : List (List Nat)) (sep : List Nat),
      CStrOK sep → sep ≠ [] →
      (∀ t ∈ items, t ≠ [] ∧ CStrOK t ∧ ∀ c ∈ t, sep.contains c = false) →
      brin_split (brin_join items sep) sep = items := by
  intro items sep hsep hsne hitems
  have hnil : Live (brin_new []) := live_brin_new [] (by intro c hc; simp at hc)
  obtain ⟨hlive, hcontent⟩ := brin_join_loop_content items (brin_new [])
    sep hnil hsep (fun t ht => (hitems t ht).2.1)
  unfold brin_split brin_join
  rw [hlive.cstrB_string, cstrB_eq_self (noNull_of_cStrOK hsep), hcontent]
  have hcnil : content (brin_new []) = [] := rfl
  rw [hcnil, List.nil_append]
  exact splitRuns_joinAux items sep hsne
    (fun t ht => ⟨(hitems t ht).1, (hitems t ht).2.2⟩)

/-- Witness for C8: `split(join(["a", "b"], ","), ",") = ["a", "b"]`. -/
theorem split_join_roundtrip_c8_witness :
    CStrOK [44] ∧
    brin_split (brin_join [[97], [98]] [44]) [44] = [[97], [98]] :=
  ⟨by decide, split_join_roundtrip_c8 [[97], [98]] [44] (by decide)
    (by decide) (by decide)⟩
